import Mathlib

/-
  Verification of the crowdsec PAPI sync client and parser runtime
  (pkg/apiserver/papi.go, pkg/parser runtime.go, pkg/parser whitelist.go).

  Shallow embedding conventions:
  * Go maps `map[string]string` become association lists (`Smap`); a map
    write is a cons whose key shadows older entries, so a read takes the
    first matching pair.  A nil-able Go map becomes `Option Smap`.
  * Fallible Go calls return `Except String _` or pair their result with
    `Option String` (the Go `error`).
  * External collaborators (the long-poll transport, the operation
    handlers called by handleEvent, a node's match/process logic, the
    expression evaluator, enrichment plugins, the outbound API call) are
    parameters of the embedded functions, typed by their Go contracts.
  * Wall-clock time is a `Nat` parameter (`now`); the zero `time.Time` is 0.
-/

/-- Association-list representation of Go `map[string]string`. -/
abbrev Smap := List (String × String)

/-- A Go map write `m[k] = v`: the new pair shadows any older entry. -/
def smapSet (m : Smap) (k v : String) : Smap := (k, v) :: m

/-- A Go map read returning whether the key is present and its value. -/
def smapFind (m : Smap) (k : String) : Option String :=
  (m.find? (fun p => p.1 = k)).map (fun p => p.2)

/-- The fields of `types.Event` that the verified functions touch.
    `Time = 0` models the zero `time.Time`; the four maps are `Option`al
    to model Go nil maps (lazily initialized by `Parse`). -/
structure Event where
  Stage : String
  Process : Bool
  Time : Nat
  Parsed : Option Smap
  Meta : Option Smap
  Enriched : Option Smap
  Unmarshaled : Option Smap
deriving DecidableEq

/-- `longpollclient.Event`: one polled long-poll event. -/
structure LPEvent where
  Timestamp : Int
  Category : String
  RequestId : String
  Data : String
deriving DecidableEq

/-- `PapiPullKey`: the fixed database key of the pull checkpoint. -/
def PapiPullKey : String := "papi:last_pull"

/-- The database config-item table (`GetConfigItem`/`SetConfigItem` store). -/
abbrev ConfigDB := Smap

/-- One swap step of the `reverse` helper: `a[i], a[j] = a[j], a[i]`. -/
def listSwap (a : List LPEvent) (i j : Nat) : List LPEvent :=
  match a[i]?, a[j]? with
  | some x, some y => (a.set i y).set j x
  | _, _ => a

/-- The countdown loop of `reverse`: `for i := len(a)/2 - 1; i >= 0; i--`
    swapping `a[i]` with `a[len(a)-1-i]`. -/
def reverseGo (a : List LPEvent) : Nat → List LPEvent
  | 0 => a
  | k + 1 => reverseGo (listSwap a k (a.length - 1 - k)) k

/-- `reverse` (papi.go): copies the slice and swaps the two halves. -/
def reverse (s : List LPEvent) : List LPEvent :=
  reverseGo s (s.length / 2)

/-- `Papi.PullOnce`.  `pulled` is the long-poll transport's answer
    (`p.Client.PullOnce`), `handle` the outcome of `p.handleEvent` on each
    event.  The database state is threaded explicitly so that the frame
    property over the checkpoint is statable; the source performs no
    database call here (the checkpoint is deliberately not advanced).
    The second component records, in dispatch order, each event handed to
    `handleEvent` and whether handling succeeded; a failed event is logged
    and the loop continues with the rest of the batch. -/
def PullOnce (db : ConfigDB) (pulled : Except String (List LPEvent))
    (handle : LPEvent → Option String) :
    ConfigDB × Except String (List (LPEvent × Bool)) :=
  match pulled with
  | .error e => (db, .error e)
  | .ok events =>
      (db, .ok ((reverse events).map (fun ev => (ev, (handle ev).isNone))))

/-- Observable actions of one turn of `Papi.Pull`'s select loop. -/
inductive PullAction where
  | updateLast (t : Nat)
  | dispatch (ev : LPEvent)
  | setConfigItem (key : String) (val : Nat) (ok : Bool)
  | logError (msg : String)
deriving DecidableEq

/-- The `case event := <-papiChan` branch of `Papi.Pull` (papi.go 300-320):
    compute `newTime`, assign `lastTimestamp` before dispatching, call
    `handleEvent`, and on success persist the new timestamp; both a
    dispatch failure and a persistence failure are logged and the loop
    continues.  Returns the new `lastTimestamp`, the ordered action trace,
    and whether the loop keeps polling. -/
def pullEventCase (now : Nat) (handle : LPEvent → Option String)
    (persistOutcome : Option String) (ev : LPEvent) :
    Nat × List PullAction × Bool :=
  let acts := [PullAction.updateLast now, PullAction.dispatch ev]
  match handle ev with
  | some m => (now, acts ++ [PullAction.logError ("failed to handle event: " ++ m)], true)
  | none =>
      match persistOutcome with
      | some m =>
          (now, acts ++ [PullAction.setConfigItem PapiPullKey now false,
            PullAction.logError ("failed to update last timestamp in database: " ++ m)], true)
      | none => (now, acts ++ [PullAction.setConfigItem PapiPullKey now true], true)

/-- One outbound call of `sendDeletedDecisionsBatch`: the chunk of decision
    identifiers and the per-call context timeout (5 seconds). -/
structure BatchCall where
  items : List String
  timeoutSeconds : Nat
deriving DecidableEq

/-- `Papi.sendDeletedDecisionsBatch` builds one outbound call bounded by a
    5-second context timeout. -/
def sendDeletedDecisionsBatch (decisions : List String) : BatchCall :=
  { items := decisions, timeoutSeconds := 5 }

/-- The chunking loop of `Papi.SendDeletedDecisions`:
    `for start := 0; start < len(cache); start += batchSize`.  `send`
    models the outcome of the outbound API call on a chunk; on the first
    failing chunk the error is logged and the loop returns.  The result is
    the ordered list of calls actually issued. -/
def sendLoop (send : List String → Option String) (cache : List String)
    (start : Nat) : List BatchCall :=
  if _h : start < cache.length then
    let batchSize := 50
    let e := min (start + batchSize) cache.length
    let chunk := (cache.drop start).take (e - start)
    let call := sendDeletedDecisionsBatch chunk
    match send chunk with
    | some _ => [call]
    | none => call :: sendLoop send cache (start + batchSize)
  else []
termination_by cache.length - start
decreasing_by omega

/-- `Papi.SendDeletedDecisions`: chunk the cached decision identifiers by
    50 and send each chunk, aborting on the first failure. -/
def SendDeletedDecisions (send : List String → Option String)
    (cacheOrig : List String) : List BatchCall :=
  sendLoop send cacheOrig 0

/-
  Parser runtime (pkg/parser).  `F` is the type standing for Go floating
  point values (only ever observed through a formatting function) and `E`
  the type of the cached expression environment fed to whitelist
  expressions.  A compiled expression program is modelled by the function
  from its inputs to the typed value `exprhelpers.Run` would produce.
-/

/-- The dynamic type of a value returned by `exprhelpers.Run` — the cases
    that the verified type switches distinguish. -/
inductive ExprOut (F : Type) where
  | str (s : String)
  | int (i : Int)
  | float (f : F)
  | bool (b : Bool)
  | map
  | arr
  | null
  | other
deriving DecidableEq

/-- `ExprWhitelist`: a compiled whitelist expression, modelled by what
    running its `Filter` on an environment yields. -/
structure ExprWhitelist (E F : Type) where
  Filter : E → Except String (ExprOut F)

/-- `Whitelist`: the compiled per-node whitelist. Parsed addresses and
    prefixes are kept abstract (their matching is outside the claims). -/
structure Whitelist (E F : Type) where
  Reason : String
  B_Ips : List String
  B_Cidrs : List String
  Exprs : List String
  B_Exprs : List (ExprWhitelist E F)

/-- The contract of a registered enrichment plugin:
    `(value, event, logger) -> (map[string]string, error)`. -/
abbrev EnrichFunc := String → Event → Smap × Option String

/-- `EnricherCtx.Registered`: the enrichment plugin registry, keyed by
    method name. -/
structure EnricherCtx where
  Registered : List (String × EnrichFunc)

/-- The `parser.Node` fields the verified functions read.  The node's
    match/process logic lives in a file outside this embedding and is a
    parameter (`proc`) of `Parse`. -/
structure Node (E F : Type) where
  Name : String
  rn : String
  Stage : String
  OnSuccess : String
  Debug : Bool
  Whitelist : Whitelist E F
  EnrichFunctions : EnricherCtx

/-- `ExtraField`: one static directive, with exactly one target kind and
    one value source populated ("" / none meaning absent). -/
structure ExtraField (F : Type) where
  Parsed : String
  Meta : String
  Enriched : String
  TargetByName : String
  Value : String
  ExpValue : String
  RunTimeValue : Option (Event → Except String (ExprOut F))
  Method : String

/-- `UnixParserCtx` restricted to the field `Parse` branches on. -/
structure UnixParserCtx where
  Stages : List String

/-- The indexed scan inside `stageidx`:
    `for i, v := range stages { if stage == v { return i } }`. -/
def stageidxFrom (stage : String) : List String → Nat → Int
  | [], _ => -1
  | v :: rest, i => if stage = v then (i : Int) else stageidxFrom stage rest (i + 1)

/-- `stageidx`: position of a stage in the configured stage list, `-1`
    when absent. -/
def stageidx (stage : String) (stages : List String) : Int :=
  stageidxFrom stage stages 0

/-- `strings.TrimPrefix(target, "evt.")`. -/
def trimEvtDot (target : String) : String :=
  if target.startsWith "evt." then target.drop 4 else target

/-- Reads the map-valued Event field named `f`, when there is one. -/
def eventMapField (f : String) (evt : Event) : Option (Option Smap) :=
  if f = "Parsed" then some evt.Parsed
  else if f = "Meta" then some evt.Meta
  else if f = "Enriched" then some evt.Enriched
  else if f = "Unmarshaled" then some evt.Unmarshaled
  else none

/-- Writes back the map-valued Event field named `f`. -/
def setEventMapField (f : String) (m : Smap) (evt : Event) : Event :=
  if f = "Parsed" then { evt with Parsed := some m }
  else if f = "Meta" then { evt with Meta := some m }
  else if f = "Enriched" then { evt with Enriched := some m }
  else if f = "Unmarshaled" then { evt with Unmarshaled := some m }
  else evt

/-- `SetTargetByName`, the reflective dotted-path writer, restricted to
    the fields present in this Event model: walking segments from the
    event struct, the first segment landing on a map sets that map entry
    and stops; a single-segment path must land on a settable string field
    (`Stage` here); anything else fails with `false` (including the nil
    map, where the source's recover handler turns the panic into `false`).
    The returned flag is the source's boolean success result. -/
def SetTargetByName (target value : String) (evt : Event) : Event × Bool :=
  let t := trimEvtDot target
  match t.splitOn "." with
  | [] => (evt, false)
  | [f] =>
      if f = "Stage" then ({ evt with Stage := value }, true)
      else (evt, false)
  | f :: g :: _ =>
      match eventMapField f evt with
      | some (some m) => (setEventMapField f (smapSet m g value) evt, true)
      | some none => (evt, false)
      | none => (evt, false)

/-- A map write on a nil-able map (no-op on the nil map, which in the
    pipeline never happens: `Parse` initializes all four maps). -/
def omapSet (m : Option Smap) (k v : String) : Option Smap :=
  m.map (fun mm => smapSet mm k v)

/-- The per-pair merge loop `for k, v := range ret { event.Enriched[k] = v }`
    of the enrichment branch of `ProcessStatics`. -/
def mergeEnriched (event : Event) (ret : Smap) : Event :=
  ret.foldl (fun ev kv => { ev with Enriched := omapSet ev.Enriched kv.1 kv.2 }) event

/-- Registry lookup `n.EnrichFunctions.Registered[static.Method]`. -/
def lookupEnrich (reg : List (String × EnrichFunc)) (method : String) :
    Option EnrichFunc :=
  (reg.find? (fun p => p.1 = method)).map (fun p => p.2)

/-- The value-resolution block of `ProcessStatics`: a literal `Value` wins;
    otherwise the compiled `RunTimeValue` is run on the event and its
    result is converted by the type switch.  `.ok none` is the source's
    `continue` (a failed expression run skips the directive), `.error` the
    hard "unexpected return type" abort.  `fmtF` models the
    `fmt.Sprintf` float formatting. -/
def resolveStaticValue {F : Type} (fmtF : F → String) (static : ExtraField F)
    (event : Event) : Except String (Option String) :=
  if static.Value ≠ "" then .ok (some static.Value)
  else
    match static.RunTimeValue with
    | none => .ok (some "")
    | some prog =>
        match prog event with
        | .error _ => .ok none
        | .ok (ExprOut.str s) => .ok (some s)
        | .ok (ExprOut.int i) => .ok (some (toString i))
        | .ok (ExprOut.float f) => .ok (some (fmtF f))
        | .ok ExprOut.map => .ok (some "")
        | .ok ExprOut.arr => .ok (some "")
        | .ok ExprOut.null => .ok (some "")
        | .ok (ExprOut.bool _) => .error "unexpected return type for RunTimeValue"
        | .ok ExprOut.other => .error "unexpected return type for RunTimeValue"

/-- `Node.ProcessStatics`: resolve each directive's value, skip empty
    values except for the `ParseDate` method, and dispatch on the target
    kind in source priority order (method, `.Parsed`, `.Meta`,
    `.Enriched`, dotted path).  An unknown method and a failed dotted-path
    write are logged and skipped; a directive with no populated target is
    the source's `clog.Fatal`, modelled as an error. -/
def ProcessStatics {E F : Type} (fmtF : F → String) (n : Node E F) :
    List (ExtraField F) → Event → Except String Event
  | [], event => .ok event
  | static :: rest, event =>
    match resolveStaticValue fmtF static event with
    | .error m => .error m
    | .ok none => ProcessStatics fmtF n rest event
    | .ok (some value) =>
      if value = "" ∧ static.Method ≠ "ParseDate" then
        ProcessStatics fmtF n rest event
      else if static.Method ≠ "" then
        match lookupEnrich n.EnrichFunctions.Registered static.Method with
        | some enrich => ProcessStatics fmtF n rest (mergeEnriched event (enrich value event).1)
        | none => ProcessStatics fmtF n rest event
      else if static.Parsed ≠ "" then
        ProcessStatics fmtF n rest { event with Parsed := omapSet event.Parsed static.Parsed value }
      else if static.Meta ≠ "" then
        ProcessStatics fmtF n rest { event with Meta := omapSet event.Meta static.Meta value }
      else if static.Enriched ≠ "" then
        ProcessStatics fmtF n rest { event with Enriched := omapSet event.Enriched static.Enriched value }
      else if static.TargetByName ≠ "" then
        ProcessStatics fmtF n rest (SetTargetByName static.TargetByName value event).1
      else
        .error "unable to process static : unknown target"

/-- One cache entry of the diagnostic dump (`StageParseCache`): the stage
    being processed, the node's name, and the node's match result, in
    append order. -/
abbrev ParserResults := List (String × String × Bool)

/-- The result of the inner node loop of `Parse`. -/
structure NLRes where
  ev : Event
  ok : Bool
  cache : ParserResults
  err : Option String

/-- The result of `Parse`: the event, the dump cache, and the Go error. -/
structure PRes where
  ev : Event
  cache : ParserResults
  err : Option String

/-- The inner node loop of `Parse` for one stage: skip nodes of other
    stages, run each node's match/process logic (`proc`, external to this
    file), abort on error, record the result in the dump cache, remember
    stage success, and break on an `"next_stage"` success or when the node
    moved the event to another stage. -/
def nodeLoop {E F : Type} (proc : Node E F → Event → Event × Bool × Option String)
    (stage : String) :
    List (Node E F) → Event → Bool → ParserResults → NLRes
  | [], event, isStageOK, dump => ⟨event, isStageOK, dump, none⟩
  | n :: rest, event, isStageOK, dump =>
    if event.Stage ≠ n.Stage then nodeLoop proc stage rest event isStageOK dump
    else
      match proc n event with
      | (event2, _, some m) => ⟨event2, isStageOK, dump, some m⟩
      | (event2, ret, none) =>
        let dump2 := dump ++ [(stage, n.Name, ret)]
        let ok2 := isStageOK || ret
        if ret ∧ n.OnSuccess = "next_stage" then ⟨event2, ok2, dump2, none⟩
        else if event2.Stage ≠ stage then ⟨event2, ok2, dump2, none⟩
        else nodeLoop proc stage rest event2 ok2 dump2

/-- The stage loop of `Parse`: skip stages the event is already past,
    abort with `Process = false` when the event's stage is behind, run the
    stage's nodes otherwise, fail the stage when no node matched, and set
    `Process = true` once every configured stage is consumed. -/
def stageLoop {E F : Type} (proc : Node E F → Event → Event × Bool × Option String)
    (allStages : List String) (nodes : List (Node E F)) :
    List String → Event → ParserResults → PRes
  | [], event, dump => ⟨{ event with Process := true }, dump, none⟩
  | stage :: rest, event, dump =>
    if stageidx event.Stage allStages > stageidx stage allStages then
      stageLoop proc allStages nodes rest event dump
    else if event.Stage ≠ stage then
      ⟨{ event with Process := false }, dump, none⟩
    else
      match nodeLoop proc stage nodes event false dump with
      | ⟨event2, _, dump2, some m⟩ => ⟨event2, dump2, some m⟩
      | ⟨event2, isStageOK, dump2, none⟩ =>
        if !isStageOK then ⟨{ event2 with Process := false }, dump2, none⟩
        else stageLoop proc allStages nodes rest event2 dump2

/-- The prelude of `Parse`: assign the first configured stage when the
    event has none, clear `Process`, default the timestamp to now, and
    initialize the four nil-able maps. -/
def parseInit (now : Nat) (ctx : UnixParserCtx) (xp : Event) : Event :=
  let event := if xp.Stage = "" ∧ ctx.Stages ≠ [] then { xp with Stage := ctx.Stages.headD "" } else xp
  let event := { event with Process := false }
  let event := if event.Time = 0 then { event with Time := now } else event
  let event := { event with Parsed := some (event.Parsed.getD []) }
  let event := { event with Enriched := some (event.Enriched.getD []) }
  let event := { event with Meta := some (event.Meta.getD []) }
  { event with Unmarshaled := some (event.Unmarshaled.getD []) }

/-- `parser.Parse`: prepare the event and drive it through the configured
    stages.  `proc` is the node match/process logic (`Node.process`,
    defined outside this file); `now` the wall clock.  The dump cache is
    returned (the source records it when `ParseDump` is set; it does not
    alter the pipeline's semantics). -/
def Parse {E F : Type} (now : Nat)
    (proc : Node E F → Event → Event × Bool × Option String)
    (ctx : UnixParserCtx) (xp : Event) (nodes : List (Node E F)) : PRes :=
  stageLoop proc ctx.Stages nodes ctx.Stages (parseInit now ctx xp) []

/-- `Node.ContainsExprLists`: whether compiled whitelist expressions exist. -/
def ContainsExprLists {E F : Type} (n : Node E F) : Bool :=
  decide (0 < n.Whitelist.B_Exprs.length)

/-- The expression loop of `CheckExprWL`: break once whitelisted, return
    an evaluation error together with the flag accumulated so far, treat a
    boolean result as the match outcome and any other result type as
    non-matching (logged only). -/
def checkExprLoop {E F : Type} (env : E) :
    List (ExprWhitelist E F) → Bool → Bool × Option String
  | [], isWhitelisted => (isWhitelisted, none)
  | e :: rest, isWhitelisted =>
    if isWhitelisted then (isWhitelisted, none)
    else
      match e.Filter env with
      | .error m => (isWhitelisted, some m)
      | .ok (ExprOut.bool b) => checkExprLoop env rest (isWhitelisted || b)
      | .ok _ => checkExprLoop env rest isWhitelisted

/-- The observable outcome of `CheckExprWL`: the whitelist flag, the Go
    error, and the increments of the `NodesWlHits` / `NodesWlHitsOk`
    metric counters. -/
structure WLResult where
  whitelisted : Bool
  err : Option String
  hits : Nat
  hitsOk : Nat
deriving DecidableEq

/-- `Node.CheckExprWL`: nothing to do without compiled expressions (no
    counter is touched); otherwise count a hit, run the loop, and count a
    hit-ok when the event ended up whitelisted (the error return leaves
    the loop before that increment). -/
def CheckExprWL {E F : Type} (n : Node E F) (cachedExprEnv : E) : WLResult :=
  if !(ContainsExprLists n) then ⟨false, none, 0, 0⟩
  else
    match checkExprLoop cachedExprEnv n.Whitelist.B_Exprs false with
    | (wl, some m) => ⟨wl, some m, 1, 0⟩
    | (wl, none) => ⟨wl, none, 1, if wl then 1 else 0⟩

/-
  Correctness of the half-swapping `reverse` helper.
-/

lemma listSwap_length (a : List LPEvent) (i j : Nat) :
    (listSwap a i j).length = a.length := by
  unfold listSwap
  cases hi : a[i]? <;> cases hj : a[j]? <;> simp [List.length_set]

lemma listSwap_getElem? (a : List LPEvent) {i j : Nat} (hi : i < a.length)
    (hj : j < a.length) (m : Nat) :
    (listSwap a i j)[m]? =
      if m = j then a[i]? else if m = i then a[j]? else a[m]? := by
  unfold listSwap
  rw [List.getElem?_eq_getElem hi, List.getElem?_eq_getElem hj]
  rw [List.getElem?_set, List.getElem?_set, List.length_set]
  split_ifs <;> first
    | rfl
    | omega

lemma reverseGo_getElem? :
    ∀ (k : Nat) (a : List LPEvent), 2 * k ≤ a.length → ∀ m,
      (reverseGo a k)[m]? =
        if m < k ∨ (a.length - k ≤ m ∧ m < a.length) then a[a.length - 1 - m]?
        else a[m]? := by
  intro k
  induction k with
  | zero =>
    intro a _ m
    rw [reverseGo, if_neg (by omega)]
  | succ k ih =>
    intro a hk m
    have hka : k < a.length := by omega
    have hopp : a.length - 1 - k < a.length := by omega
    have hlen : (listSwap a k (a.length - 1 - k)).length = a.length :=
      listSwap_length a k (a.length - 1 - k)
    rw [reverseGo, ih _ (by rw [hlen]; omega) m]
    simp only [hlen]
    have hswap := fun mm => listSwap_getElem? a hka hopp mm
    by_cases c1 : m < k
    · rw [if_pos (Or.inl c1), if_pos (Or.inl (by omega)), hswap,
        if_neg (by omega), if_neg (by omega)]
    · by_cases c2 : m = k
      · subst c2
        rw [if_neg (by omega), hswap, if_neg (by omega), if_pos rfl,
          if_pos (Or.inl (by omega))]
      · by_cases c3 : m = a.length - 1 - k
        · subst c3
          rw [if_neg (by omega), hswap, if_pos rfl, if_pos (Or.inr (by omega))]
          have he : a.length - 1 - (a.length - 1 - k) = k := by omega
          rw [he]
        · by_cases c4 : a.length - 1 - k < m ∧ m < a.length
          · rw [if_pos (Or.inr (by omega)), if_pos (Or.inr (by omega)), hswap,
              if_neg (by omega), if_neg (by omega)]
          · rw [if_neg (by omega), if_neg (by omega), hswap,
              if_neg (by omega), if_neg (by omega)]

/-- The swap-based `reverse` of the source equals list reversal. -/
lemma reverse_eq_list_reverse (s : List LPEvent) : reverse s = s.reverse := by
  apply List.ext_getElem?
  intro m
  rw [reverse, reverseGo_getElem? (s.length / 2) s (by omega) m]
  by_cases hm : m < s.length
  · rw [List.getElem?_reverse hm]
    by_cases hc : m < s.length / 2 ∨ (s.length - s.length / 2 ≤ m ∧ m < s.length)
    · rw [if_pos hc]
    · rw [if_neg hc]
      have he : s.length - 1 - m = m := by omega
      rw [he]
  · rw [if_neg (by omega), List.getElem?_eq_none (by omega),
      List.getElem?_eq_none (by rw [List.length_reverse]; omega)]

/-- Claim C3: for every batch of long-poll events delivered newest-first,
    `PullOnce` dispatches them to the handler in exactly the reversed
    (chronological) order, and a handling error does not prevent the
    remaining events of the batch from being handled: the dispatch trace
    covers the whole reversed batch, failures merely flagged. -/
theorem pullonce_chronological_dispatch (db : ConfigDB)
    (events : List LPEvent) (handle : LPEvent → Option String) :
    PullOnce db (.ok events) handle =
      (db, .ok (events.reverse.map (fun ev => (ev, (handle ev).isNone)))) := by
  simp [PullOnce, reverse_eq_list_reverse]

/-- Claim C4: a `PullOnce` call leaves the persisted pull checkpoint (the
    config item under `PapiPullKey`) exactly as it was, however many
    events were pulled and dispatched. -/
theorem pullonce_checkpoint_frame (db : ConfigDB)
    (pulled : Except String (List LPEvent)) (handle : LPEvent → Option String) :
    smapFind (PullOnce db pulled handle).1 PapiPullKey = smapFind db PapiPullKey := by
  cases pulled <;> rfl

/-- Claim C5 (amended): on an incoming polled event the in-memory
    checkpoint is set to now before the dispatch; when the dispatch
    succeeds the updated checkpoint is persisted under `PapiPullKey` (a
    persistence failure is only logged); when the dispatch fails the
    persistence step is skipped; polling continues in every case. -/
theorem pull_event_checkpoint_order (now : Nat)
    (handle : LPEvent → Option String) (persistOutcome : Option String)
    (ev : LPEvent) :
    ((pullEventCase now handle persistOutcome ev).2.1)[0]? =
      some (PullAction.updateLast now) ∧
    ((pullEventCase now handle persistOutcome ev).2.1)[1]? =
      some (PullAction.dispatch ev) ∧
    (handle ev = none →
      PullAction.setConfigItem PapiPullKey now persistOutcome.isNone ∈
        (pullEventCase now handle persistOutcome ev).2.1) ∧
    (∀ m, handle ev = some m → ∀ k t b,
      PullAction.setConfigItem k t b ∉ (pullEventCase now handle persistOutcome ev).2.1) ∧
    (pullEventCase now handle persistOutcome ev).2.2 = true ∧
    (pullEventCase now handle persistOutcome ev).1 = now := by
  cases hh : handle ev <;> cases hp : persistOutcome <;>
    simp [pullEventCase, hh, hp]

/-- Witness for C5's theorem at a concrete event whose dispatch succeeds
    and whose persistence succeeds. -/
theorem pull_event_checkpoint_order_witness :
    PullAction.setConfigItem PapiPullKey 3 true ∈
      (pullEventCase 3 (fun _ => none) none ⟨0, "", "r1", "d"⟩).2.1 :=
  (pull_event_checkpoint_order 3 (fun _ => none) none ⟨0, "", "r1", "d"⟩).2.2.1 rfl

/-- Counterexample to claim C5 as stated: for an incoming polled event
    whose dispatch fails, the updated checkpoint is not persisted at all —
    no `SetConfigItem` call happens in that loop turn (the source
    `continue`s before the persistence step). -/
theorem pull_event_persist_skipped_cex :
    (pullEventCase 7 (fun _ => some "boom") none ⟨0, "", "r1", "d"⟩).2.1 =
      [PullAction.updateLast 7, PullAction.dispatch ⟨0, "", "r1", "d"⟩,
        PullAction.logError "failed to handle event: boom"] ∧
    (pullEventCase 7 (fun _ => some "boom") none ⟨0, "", "r1", "d"⟩).2.2 = true ∧
    PullAction.setConfigItem PapiPullKey 7 true ∉
      (pullEventCase 7 (fun _ => some "boom") none ⟨0, "", "r1", "d"⟩).2.1 := by
  refine ⟨rfl, rfl, ?_⟩
  intro h
  simp [pullEventCase] at h

lemma sendLoop_stop (send : List String → Option String)
    (cache : List String) (start : Nat) (h : ¬ start < cache.length) :
    sendLoop send cache start = [] := by
  rw [sendLoop, dif_neg h]

lemma sendLoop_step_ok (send : List String → Option String)
    (cache : List String) (start : Nat) (h : start < cache.length)
    (hs : send ((cache.drop start).take (min (start + 50) cache.length - start)) = none) :
    sendLoop send cache start =
      ⟨(cache.drop start).take (min (start + 50) cache.length - start), 5⟩ ::
        sendLoop send cache (start + 50) := by
  rw [sendLoop, dif_pos h]
  simp only [hs, sendDeletedDecisionsBatch]

lemma sendLoop_step_err (send : List String → Option String)
    (cache : List String) (start : Nat) (h : start < cache.length) (m : String)
    (hs : send ((cache.drop start).take (min (start + 50) cache.length - start)) = some m) :
    sendLoop send cache start =
      [⟨(cache.drop start).take (min (start + 50) cache.length - start), 5⟩] := by
  rw [sendLoop, dif_pos h]
  simp only [hs, sendDeletedDecisionsBatch]

lemma sendLoop_calls (send : List String → Option String) (cache : List String) :
    ∀ (fuel start : Nat), cache.length - start ≤ fuel →
      ∀ b ∈ sendLoop send cache start, b.items.length ≤ 50 ∧ b.timeoutSeconds = 5 := by
  intro fuel
  induction fuel with
  | zero =>
    intro start hf b hb
    rw [sendLoop_stop send cache start (by omega)] at hb
    cases hb
  | succ fuel ih =>
    intro start hf b hb
    by_cases h : start < cache.length
    · cases hs : send ((cache.drop start).take (min (start + 50) cache.length - start)) with
      | some m =>
        rw [sendLoop_step_err send cache start h m hs, List.mem_singleton] at hb
        subst hb
        refine ⟨by simp [List.length_take]; omega, rfl⟩
      | none =>
        rw [sendLoop_step_ok send cache start h hs, List.mem_cons] at hb
        rcases hb with rfl | hb
        · refine ⟨by simp [List.length_take]; omega, rfl⟩
        · exact ih (start + 50) (by omega) b hb
    · rw [sendLoop_stop send cache start h] at hb
      cases hb

/-- Claim C6: a flush splits the pending identifiers into consecutive
    chunks of at most 50, sends them in order, each call carrying its own
    5-second timeout, and stops at the first failing chunk; 125
    identifiers yield exactly the three calls of sizes 50, 50, 25, and
    only the first call when it fails. -/
theorem send_deleted_decisions_chunking
    (send : List String → Option String) (cache : List String)
    (h125 : cache.length = 125) :
    (∀ b ∈ SendDeletedDecisions send cache,
      b.items.length ≤ 50 ∧ b.timeoutSeconds = 5) ∧
    ((∀ c, send c = none) →
      SendDeletedDecisions send cache =
        [⟨cache.take 50, 5⟩, ⟨(cache.drop 50).take 50, 5⟩, ⟨(cache.drop 100).take 25, 5⟩] ∧
      (SendDeletedDecisions send cache).map (fun b => b.items.length) = [50, 50, 25] ∧
      ((SendDeletedDecisions send cache).map BatchCall.items).flatten = cache) ∧
    (∀ m, send (cache.take 50) = some m →
      SendDeletedDecisions send cache = [⟨cache.take 50, 5⟩]) := by
  have hc0 : (cache.drop 0).take (min (0 + 50) cache.length - 0) = cache.take 50 := by
    rw [h125, List.drop_zero]
    norm_num
  have hc50 : (cache.drop 50).take (min (50 + 50) cache.length - 50) = (cache.drop 50).take 50 := by
    rw [h125]
    norm_num
  have hc100 : (cache.drop 100).take (min (100 + 50) cache.length - 100) = (cache.drop 100).take 25 := by
    rw [h125]
    norm_num
  refine ⟨fun b hb => sendLoop_calls send cache cache.length 0 (by omega) b hb, ?_, ?_⟩
  · intro hall
    have htr : SendDeletedDecisions send cache =
        [⟨cache.take 50, 5⟩, ⟨(cache.drop 50).take 50, 5⟩, ⟨(cache.drop 100).take 25, 5⟩] := by
      unfold SendDeletedDecisions
      rw [sendLoop_step_ok send cache 0 (by omega) (hall _),
        sendLoop_step_ok send cache 50 (by omega) (hall _)]
      rw [show (50 : Nat) + 50 = 100 from rfl,
        sendLoop_step_ok send cache 100 (by omega) (hall _)]
      rw [show (100 : Nat) + 50 = 150 from rfl,
        sendLoop_stop send cache 150 (by omega), hc0, hc50, hc100]
    refine ⟨htr, ?_, ?_⟩
    · rw [htr]
      simp [List.length_take, List.length_drop, h125]
    · rw [htr]
      have e1 : (cache.drop 100).take 25 = cache.drop 100 :=
        List.take_of_length_le (by simp [List.length_drop, h125])
      have e2 : cache.drop 100 = (cache.drop 50).drop 50 := by
        rw [List.drop_drop]
      simp only [List.map_cons, List.map_nil, List.flatten_cons,
        List.flatten_nil, List.append_nil]
      rw [e1, e2, List.take_append_drop, List.take_append_drop]
  · intro m hm
    unfold SendDeletedDecisions
    rw [sendLoop_step_err send cache 0 (by omega) m (by rw [hc0]; exact hm), hc0]

/-- Witness for C6 at 125 concrete identifiers with a succeeding call. -/
theorem send_deleted_decisions_chunking_witness :
    (SendDeletedDecisions (fun _ => none) (List.replicate 125 "d")).map
      (fun b => b.items.length) = [50, 50, 25] :=
  ((send_deleted_decisions_chunking (fun _ => none) (List.replicate 125 "d")
    (by simp)).2.1 (fun _ => rfl)).2.1

/-
  Static assignment processing (claims C7 and C8).
-/

lemma toDigits_length_pos (b n : Nat) : 0 < (Nat.toDigits b n).length := by
  unfold Nat.toDigits
  simp only [Nat.toDigitsCore]
  by_cases h : n / b = 0
  · simp [h]
  · simp only [h, if_false]
    rw [Nat.toDigitsCore_lens_eq]
    omega

lemma nat_repr_length_pos (n : Nat) : 0 < (Nat.repr n).length := by
  unfold Nat.repr
  have h : (List.asString (Nat.toDigits 10 n)).length = (Nat.toDigits 10 n).length := by
    simp [List.asString, String.length]
  rw [h]
  exact toDigits_length_pos 10 n

/-- `strconv.Itoa` never yields the empty string. -/
lemma int_toString_ne_empty (i : Int) : toString i ≠ "" := by
  intro h
  have hlen := congrArg String.length h
  cases i with
  | ofNat m =>
    have hr : toString (Int.ofNat m) = Nat.repr m := rfl
    rw [hr] at hlen
    have := nat_repr_length_pos m
    simp at hlen
    omega
  | negSucc m =>
    have hr : toString (Int.negSucc m) = "-" ++ Nat.repr (m + 1) := rfl
    rw [hr] at hlen
    rw [String.length_append] at hlen
    have := nat_repr_length_pos (m + 1)
    simp at hlen
    omega

/-- Claim C7: a static directive whose resolved value is empty is skipped
    (the event, hence the target field, is untouched) unless its method is
    `"ParseDate"`; a `"ParseDate"` directive runs its enrichment function
    even on the empty value. -/
theorem statics_empty_value_skip {E F : Type} (fmtF : F → String)
    (n : Node E F) (static : ExtraField F) (rest : List (ExtraField F))
    (event : Event) (hv : static.Value = "") (hr : static.RunTimeValue = none) :
    (static.Method ≠ "ParseDate" →
      ProcessStatics fmtF n (static :: rest) event = ProcessStatics fmtF n rest event) ∧
    (∀ f, static.Method = "ParseDate" →
      lookupEnrich n.EnrichFunctions.Registered static.Method = some f →
      ProcessStatics fmtF n (static :: rest) event =
        ProcessStatics fmtF n rest (mergeEnriched event (f "" event).1)) := by
  constructor
  · intro hm
    simp [ProcessStatics, resolveStaticValue, hv, hr, hm]
  · intro f hm hlook
    rw [hm] at hlook
    simp [ProcessStatics, resolveStaticValue, hv, hr, hm, hlook]

/-- Claim C8: the value of an expression-driven static directive follows
    the source's type switch — a string is used as-is, an int is
    decimal-formatted, a float is formatted by the language formatter, a
    mapping / sequence / nil leaves the directive skipped and the event
    untouched, and any other return type aborts `ProcessStatics` with an
    error without running the remaining directives. -/
theorem statics_expr_return_types {E F : Type} (fmtF : F → String)
    (n : Node E F) (static : ExtraField F)
    (prog : Event → Except String (ExprOut F)) (rest : List (ExtraField F))
    (event : Event) (k : String) (hv : static.Value = "")
    (hr : static.RunTimeValue = some prog) (hm : static.Method = "")
    (hp : static.Parsed = "") (hk : static.Meta = k) (hk0 : k ≠ "") :
    (∀ s, prog event = .ok (.str s) → s ≠ "" →
      ProcessStatics fmtF n (static :: rest) event =
        ProcessStatics fmtF n rest { event with Meta := omapSet event.Meta k s }) ∧
    (∀ i : Int, prog event = .ok (.int i) →
      ProcessStatics fmtF n (static :: rest) event =
        ProcessStatics fmtF n rest { event with Meta := omapSet event.Meta k (toString i) }) ∧
    (∀ f, prog event = .ok (.float f) → fmtF f ≠ "" →
      ProcessStatics fmtF n (static :: rest) event =
        ProcessStatics fmtF n rest { event with Meta := omapSet event.Meta k (fmtF f) }) ∧
    (prog event = .ok .map →
      ProcessStatics fmtF n (static :: rest) event = ProcessStatics fmtF n rest event) ∧
    (prog event = .ok .arr →
      ProcessStatics fmtF n (static :: rest) event = ProcessStatics fmtF n rest event) ∧
    (prog event = .ok .null →
      ProcessStatics fmtF n (static :: rest) event = ProcessStatics fmtF n rest event) ∧
    (prog event = .ok .other →
      ProcessStatics fmtF n (static :: rest) event =
        .error "unexpected return type for RunTimeValue") := by
  refine ⟨?_, ?_, ?_, ?_, ?_, ?_, ?_⟩
  · intro s hprog hs
    simp [ProcessStatics, resolveStaticValue, hv, hr, hm, hp, hk, hk0, hprog, hs]
  · intro i hprog
    simp [ProcessStatics, resolveStaticValue, hv, hr, hm, hp, hk, hk0, hprog,
      int_toString_ne_empty i]
  · intro f hprog hf
    simp [ProcessStatics, resolveStaticValue, hv, hr, hm, hp, hk, hk0, hprog, hf]
  · intro hprog
    simp [ProcessStatics, resolveStaticValue, hv, hr, hm, hp, hk, hk0, hprog]
  · intro hprog
    simp [ProcessStatics, resolveStaticValue, hv, hr, hm, hp, hk, hk0, hprog]
  · intro hprog
    simp [ProcessStatics, resolveStaticValue, hv, hr, hm, hp, hk, hk0, hprog]
  · intro hprog
    simp [ProcessStatics, resolveStaticValue, hv, hr, hm, hp, hk, hk0, hprog]

/-- Trivial float formatter for concrete instantiations. -/
def unitFmt : Unit → String := fun _ => "0.000000"

/-- An empty compiled whitelist for concrete nodes. -/
def emptyWL : Whitelist Unit Unit := ⟨"", [], [], [], []⟩

/-- A concrete `ParseDate`-style enrichment function. -/
def parseDateFn : EnrichFunc := fun _ _ => ([("date", "now")], none)

/-- A concrete node whose registry holds only `ParseDate`. -/
def nodePD : Node Unit Unit :=
  ⟨"n", "n", "s00", "", false, emptyWL, ⟨[("ParseDate", parseDateFn)]⟩⟩

/-- A concrete pipeline-initialized event. -/
def evt0 : Event := ⟨"s00", false, 1, some [], some [], some [], some []⟩

/-- A static directive with empty value and the `ParseDate` method. -/
def staticPD : ExtraField Unit := ⟨"", "", "", "", "", "", none, "ParseDate"⟩

/-- A concrete compiled expression returning the string `"x"`. -/
def progStr : Event → Except String (ExprOut Unit) := fun _ => .ok (.str "x")

/-- A static directive targeting `Meta["geo"]` driven by `progStr`. -/
def staticStr : ExtraField Unit := ⟨"", "geo", "", "", "", "", some progStr, ""⟩

/-- Witness for C7: the empty-valued `ParseDate` directive still runs its
    enrichment function on the concrete node. -/
theorem statics_empty_value_skip_witness :
    ProcessStatics unitFmt nodePD [staticPD] evt0 =
      ProcessStatics unitFmt nodePD [] (mergeEnriched evt0 (parseDateFn "" evt0).1) :=
  (statics_empty_value_skip unitFmt nodePD staticPD [] evt0 rfl rfl).2
    parseDateFn rfl rfl

/-- Witness for C8: the string-returning expression writes `Meta["geo"]`. -/
theorem statics_expr_return_types_witness :
    ProcessStatics unitFmt nodePD [staticStr] evt0 =
      ProcessStatics unitFmt nodePD [] { evt0 with Meta := omapSet evt0.Meta "geo" "x" } :=
  (statics_expr_return_types unitFmt nodePD staticStr progStr [] evt0 "geo"
    rfl rfl rfl rfl rfl (by decide)).1 "x" rfl (by decide)

/-
  Whitelist expression checks (claim C9).
-/

lemma checkExprLoop_true {E F : Type} (env : E)
    (l : List (ExprWhitelist E F)) : checkExprLoop env l true = (true, none) := by
  cases l <;> simp [checkExprLoop]

lemma checkExprLoop_skip {E F : Type} (env : E) :
    ∀ (pre l : List (ExprWhitelist E F)),
      (∀ p ∈ pre, ∃ out, p.Filter env = .ok out ∧ out ≠ ExprOut.bool true) →
      checkExprLoop env (pre ++ l) false = checkExprLoop env l false := by
  intro pre
  induction pre with
  | nil => intro l _; rfl
  | cons p pre ih =>
    intro l hp
    obtain ⟨out, hres, hnb⟩ := hp p (by simp)
    have hrest : ∀ q ∈ pre, ∃ out, q.Filter env = .ok out ∧ out ≠ ExprOut.bool true :=
      fun q hq => hp q (by simp [hq])
    simp only [List.cons_append, checkExprLoop, if_neg, Bool.false_eq_true,
      reduceIte, hres]
    cases out with
    | bool b =>
      cases b
      · simpa using ih l hrest
      · exact absurd rfl hnb
    | str s => simpa using ih l hrest
    | int i => simpa using ih l hrest
    | float f => simpa using ih l hrest
    | map => simpa using ih l hrest
    | arr => simpa using ih l hrest
    | null => simpa using ih l hrest
    | other => simpa using ih l hrest

/-- Claim C9: `CheckExprWL` runs the compiled whitelist expressions in
    order and stops at the first one returning `true`; a non-boolean
    result is treated as non-matching without failing the call; an
    evaluation error is returned together with the flag accumulated so
    far; a node with no compiled expressions returns not-whitelisted with
    no error and no counter increments. -/
theorem check_expr_wl_semantics {E F : Type} (n : Node E F) (env : E) :
    (n.Whitelist.B_Exprs = [] → CheckExprWL n env = ⟨false, none, 0, 0⟩) ∧
    (∀ pre (e : ExprWhitelist E F) post,
      n.Whitelist.B_Exprs = pre ++ e :: post →
      (∀ p ∈ pre, ∃ out, p.Filter env = .ok out ∧ out ≠ ExprOut.bool true) →
      ((e.Filter env = .ok (.bool true) → CheckExprWL n env = ⟨true, none, 1, 1⟩) ∧
       (∀ m, e.Filter env = .error m → CheckExprWL n env = ⟨false, some m, 1, 0⟩))) ∧
    ((∀ p ∈ n.Whitelist.B_Exprs, ∃ out, p.Filter env = .ok out ∧
        ∀ b, out ≠ ExprOut.bool b) →
      n.Whitelist.B_Exprs ≠ [] → CheckExprWL n env = ⟨false, none, 1, 0⟩) := by
  refine ⟨?_, ?_, ?_⟩
  · intro hempty
    simp [CheckExprWL, ContainsExprLists, hempty]
  · intro pre e post hBE hpre
    have hlen : ContainsExprLists n = true := by
      simp only [ContainsExprLists, hBE]
      simp
    constructor
    · intro htrue
      have hloop : checkExprLoop env n.Whitelist.B_Exprs false = (true, none) := by
        rw [hBE, checkExprLoop_skip env pre (e :: post) hpre]
        simp [checkExprLoop, htrue, checkExprLoop_true]
      simp [CheckExprWL, hlen, hloop]
    · intro m herr
      have hloop : checkExprLoop env n.Whitelist.B_Exprs false = (false, some m) := by
        rw [hBE, checkExprLoop_skip env pre (e :: post) hpre]
        simp [checkExprLoop, herr]
      simp [CheckExprWL, hlen, hloop]
  · intro hall hne
    have hlen : ContainsExprLists n = true := by
      simp only [ContainsExprLists]
      simp
      exact List.length_pos.mpr hne
    have hskip := checkExprLoop_skip env n.Whitelist.B_Exprs []
      (fun p hp => (hall p hp).imp (fun out ho => ⟨ho.1, ho.2 true⟩))
    rw [List.append_nil] at hskip
    have hloop : checkExprLoop env n.Whitelist.B_Exprs false = (false, none) := by
      rw [hskip]; rfl
    simp [CheckExprWL, hlen, hloop]

/-- A compiled whitelist expression returning `true`. -/
def exprTrueWL : ExprWhitelist Unit Unit := ⟨fun _ => .ok (.bool true)⟩

/-- A concrete node with one whitelist expression. -/
def nodeWL : Node Unit Unit :=
  ⟨"n", "n", "s00", "", false, ⟨"", [], [], ["true"], [exprTrueWL]⟩, ⟨[]⟩⟩

/-- Witness for C9: the single always-true expression whitelists the
    event and both counters are incremented once. -/
theorem check_expr_wl_semantics_witness :
    CheckExprWL nodeWL () = ⟨true, none, 1, 1⟩ :=
  ((check_expr_wl_semantics nodeWL ()).2.1 [] exprTrueWL [] rfl (by simp)).1 rfl

/-
  Stage index lemmas and the pipeline claims (C1, C2, C10).
-/

lemma stageidxFrom_nonneg_of_mem (s : String) :
    ∀ (l : List String) (i : Nat), s ∈ l → 0 ≤ stageidxFrom s l i := by
  intro l
  induction l with
  | nil => intro i h; cases h
  | cons v t ih =>
    intro i h
    by_cases hv : s = v
    · simp [stageidxFrom, hv]
    · have ht : s ∈ t := by
        rcases List.mem_cons.mp h with h1 | h1
        · exact absurd h1 hv
        · exact h1
      simpa [stageidxFrom, hv] using ih (i + 1) ht

lemma stageidx_nonneg_of_mem {s : String} {l : List String} (h : s ∈ l) :
    0 ≤ stageidx s l :=
  stageidxFrom_nonneg_of_mem s l 0 h

lemma stageidxFrom_eq_neg_of_not_mem (s : String) :
    ∀ (l : List String) (i : Nat), s ∉ l → stageidxFrom s l i = -1 := by
  intro l
  induction l with
  | nil => intro i _; rfl
  | cons v t ih =>
    intro i h
    have hv : s ≠ v := fun he => h (he ▸ List.mem_cons_self v t)
    have ht : s ∉ t := fun he => h (List.mem_cons_of_mem v he)
    simpa [stageidxFrom, hv] using ih (i + 1) ht

lemma stageidx_neg_of_not_mem {s : String} {l : List String} (h : s ∉ l) :
    stageidx s l = -1 :=
  stageidxFrom_eq_neg_of_not_mem s l 0 h

lemma parseInit_stage_of_ne (now : Nat) (ctx : UnixParserCtx) (xp : Event)
    (h : xp.Stage ≠ "") : (parseInit now ctx xp).Stage = xp.Stage := by
  simp only [parseInit, h]
  simp only [false_and, if_false, reduceIte]
  split <;> rfl

/-- Claim C10: an event whose non-empty stage matches no configured stage
    makes `Parse` return `Process = false` with no error and with no node
    invoked: the result does not depend on `proc` or on the nodes, and the
    dump cache stays empty. -/
theorem parse_unknown_stage_terminal {E F : Type} (now : Nat)
    (proc : Node E F → Event → Event × Bool × Option String)
    (ctx : UnixParserCtx) (xp : Event) (nodes : List (Node E F))
    (h1 : xp.Stage ≠ "") (h2 : xp.Stage ∉ ctx.Stages) (h3 : ctx.Stages ≠ []) :
    Parse now proc ctx xp nodes =
      ⟨{ parseInit now ctx xp with Process := false }, [], none⟩ := by
  obtain ⟨s0, rest, hst⟩ := List.exists_cons_of_ne_nil h3
  have hps : (parseInit now ctx xp).Stage = xp.Stage := parseInit_stage_of_ne now ctx xp h1
  have hidx1 : stageidx xp.Stage ctx.Stages = -1 := stageidx_neg_of_not_mem h2
  have hidx2 : 0 ≤ stageidx s0 ctx.Stages := stageidx_nonneg_of_mem (by rw [hst]; simp)
  have hne : xp.Stage ≠ s0 := fun he => h2 (by rw [hst, he]; simp)
  unfold Parse
  -- the stage list argument of the loop is `ctx.Stages = s0 :: rest`
  conv_lhs => rw [hst]
  simp only [stageLoop]
  rw [if_neg (by rw [hps, ← hst]; omega), if_pos (by rw [hps]; exact hne)]

/-- A node match/process oracle that always matches and never touches the
    event (used for concrete instantiations). -/
def procId : Node Unit Unit → Event → Event × Bool × Option String :=
  fun _ e => (e, true, none)

/-- A concrete event carrying a stage unknown to every stage list. -/
def xpZZ : Event := ⟨"zz", false, 1, some [], some [], some [], some []⟩

/-- Witness for C10 on a concrete unknown-stage event. -/
theorem parse_unknown_stage_terminal_witness :
    Parse 5 procId ⟨["s00"]⟩ xpZZ [] =
      ⟨{ parseInit 5 ⟨["s00"]⟩ xpZZ with Process := false }, [], none⟩ :=
  parse_unknown_stage_terminal 5 procId ⟨["s00"]⟩ xpZZ []
    (by decide) (by decide) (by decide)

/-- Claim C2: the terminal non-error outcomes of the stage loop — an event
    whose stage is behind the expected stage, or a stage in which no node
    matched, ends `Parse` with `Process = false` and a nil error — while a
    node-processing error is returned immediately, both by the node loop
    and by the stage loop. -/
theorem parse_terminal_outcomes {E F : Type}
    (proc : Node E F → Event → Event × Bool × Option String)
    (allStages : List String) (nodes : List (Node E F)) :
    (∀ (stage : String) (rest : List String) (e : Event) (dump : ParserResults),
      stageidx e.Stage allStages ≤ stageidx stage allStages → e.Stage ≠ stage →
      stageLoop proc allStages nodes (stage :: rest) e dump =
        ⟨{ e with Process := false }, dump, none⟩) ∧
    (∀ (stage : String) (rest : List String) (e e2 : Event)
        (dump dump2 : ParserResults),
      e.Stage = stage →
      nodeLoop proc stage nodes e false dump = ⟨e2, false, dump2, none⟩ →
      stageLoop proc allStages nodes (stage :: rest) e dump =
        ⟨{ e2 with Process := false }, dump2, none⟩) ∧
    (∀ (stage : String) (rest : List String) (e e2 : Event) (ok2 : Bool)
        (dump dump2 : ParserResults) (m : String),
      e.Stage = stage →
      nodeLoop proc stage nodes e false dump = ⟨e2, ok2, dump2, some m⟩ →
      stageLoop proc allStages nodes (stage :: rest) e dump = ⟨e2, dump2, some m⟩) ∧
    (∀ (stage : String) (n : Node E F) (more : List (Node E F)) (e e2 : Event)
        (ok ret : Bool) (dump : ParserResults) (m : String),
      e.Stage = n.Stage → proc n e = (e2, ret, some m) →
      nodeLoop proc stage (n :: more) e ok dump = ⟨e2, ok, dump, some m⟩) := by
  refine ⟨?_, ?_, ?_, ?_⟩
  · intro stage rest e dump hle hne
    simp only [stageLoop]
    rw [if_neg (by omega), if_pos hne]
  · intro stage rest e e2 dump dump2 heq hnl
    simp only [stageLoop]
    rw [if_neg (by rw [heq]; omega), if_neg (by simp [heq]), hnl]
    rfl
  · intro stage rest e e2 ok2 dump dump2 m heq hnl
    simp only [stageLoop]
    rw [if_neg (by rw [heq]; omega), if_neg (by simp [heq]), hnl]
  · intro stage n more e e2 ok ret dump m heq hproc
    simp only [nodeLoop]
    rw [if_neg (by simp [heq]), hproc]

/-- Witness for C2's theorem: the behind-stage case at a concrete event. -/
theorem parse_terminal_outcomes_witness :
    stageLoop procId ["s00"] ([] : List (Node Unit Unit)) ["s00"] xpZZ [] =
      ⟨{ xpZZ with Process := false }, [], none⟩ :=
  (parse_terminal_outcomes procId ["s00"] []).1 "s00" [] xpZZ []
    (by decide) (by decide)

lemma nodeLoop_stage_mono {E F : Type}
    (proc : Node E F → Event → Event × Bool × Option String)
    (all : List String)
    (Hproc : ∀ n e, stageidx ((proc n e).1).Stage all ≥ stageidx e.Stage all)
    (stage : String) :
    ∀ (ns : List (Node E F)) (e : Event) (ok : Bool) (dump : ParserResults),
      stageidx ((nodeLoop proc stage ns e ok dump).ev).Stage all ≥
        stageidx e.Stage all := by
  intro ns
  induction ns with
  | nil => intro e ok dump; exact le_refl _
  | cons n rest ih =>
    intro e ok dump
    simp only [nodeLoop]
    by_cases hskip : e.Stage ≠ n.Stage
    · rw [if_pos hskip]
      exact ih e ok dump
    · rw [if_neg hskip]
      rcases hp : proc n e with ⟨e2, ret, err⟩
      have hm := Hproc n e
      rw [hp] at hm
      simp only at hm
      cases err with
      | some m =>
        dsimp only
        exact hm
      | none =>
        dsimp only
        by_cases hb1 : ret = true ∧ n.OnSuccess = "next_stage"
        · rw [if_pos hb1]
          exact hm
        · rw [if_neg hb1]
          by_cases hb2 : e2.Stage ≠ stage
          · rw [if_pos hb2]
            exact hm
          · rw [if_neg hb2]
            exact ge_trans (ih e2 (ok || ret) (dump ++ [(stage, n.Name, ret)])) hm

lemma stageLoop_stage_mono {E F : Type}
    (proc : Node E F → Event → Event × Bool × Option String)
    (all : List String) (nodes : List (Node E F))
    (Hproc : ∀ n e, stageidx ((proc n e).1).Stage all ≥ stageidx e.Stage all) :
    ∀ (sts : List String) (e : Event) (dump : ParserResults),
      stageidx ((stageLoop proc all nodes sts e dump).ev).Stage all ≥
        stageidx e.Stage all := by
  intro sts
  induction sts with
  | nil => intro e dump; exact le_refl _
  | cons stage rest ih =>
    intro e dump
    simp only [stageLoop]
    by_cases hskip : stageidx e.Stage all > stageidx stage all
    · rw [if_pos hskip]
      exact ih e dump
    · rw [if_neg hskip]
      by_cases hbeh : e.Stage ≠ stage
      · rw [if_pos hbeh]
      · rw [if_neg hbeh]
        rcases hnl : nodeLoop proc stage nodes e false dump with ⟨e2, ok2, dump2, err2⟩
        have hm := nodeLoop_stage_mono proc all Hproc stage nodes e false dump
        rw [hnl] at hm
        simp only at hm
        cases err2 with
        | some m =>
          dsimp only
          exact hm
        | none =>
          dsimp only
          cases ok2 with
          | false => exact hm
          | true => exact ge_trans (ih e2 dump2) hm

lemma nodeLoop_cache_extend {E F : Type}
    (proc : Node E F → Event → Event × Bool × Option String) (stage : String) :
    ∀ (ns : List (Node E F)) (e : Event) (ok : Bool) (dump : ParserResults),
      ∃ t, (nodeLoop proc stage ns e ok dump).cache = dump ++ t := by
  intro ns
  induction ns with
  | nil => intro e ok dump; exact ⟨[], by simp [nodeLoop]⟩
  | cons n rest ih =>
    intro e ok dump
    simp only [nodeLoop]
    by_cases hskip : e.Stage ≠ n.Stage
    · rw [if_pos hskip]
      exact ih e ok dump
    · rw [if_neg hskip]
      rcases hp : proc n e with ⟨e2, ret, err⟩
      cases err with
      | some m =>
        dsimp only
        exact ⟨[], by simp⟩
      | none =>
        dsimp only
        by_cases hb1 : ret = true ∧ n.OnSuccess = "next_stage"
        · rw [if_pos hb1]
          exact ⟨[(stage, n.Name, ret)], rfl⟩
        · rw [if_neg hb1]
          by_cases hb2 : e2.Stage ≠ stage
          · rw [if_pos hb2]
            exact ⟨[(stage, n.Name, ret)], rfl⟩
          · rw [if_neg hb2]
            obtain ⟨t, ht⟩ := ih e2 (ok || ret) (dump ++ [(stage, n.Name, ret)])
            exact ⟨[(stage, n.Name, ret)] ++ t, by rw [ht, List.append_assoc]⟩

lemma stageLoop_cache_extend {E F : Type}
    (proc : Node E F → Event → Event × Bool × Option String)
    (all : List String) (nodes : List (Node E F)) :
    ∀ (sts : List String) (e : Event) (dump : ParserResults),
      ∃ t, (stageLoop proc all nodes sts e dump).cache = dump ++ t := by
  intro sts
  induction sts with
  | nil => intro e dump; exact ⟨[], by simp [stageLoop]⟩
  | cons stage rest ih =>
    intro e dump
    simp only [stageLoop]
    by_cases hskip : stageidx e.Stage all > stageidx stage all
    · rw [if_pos hskip]
      exact ih e dump
    · rw [if_neg hskip]
      by_cases hbeh : e.Stage ≠ stage
      · rw [if_pos hbeh]
        exact ⟨[], by simp⟩
      · rw [if_neg hbeh]
        rcases hnl : nodeLoop proc stage nodes e false dump with ⟨e2, ok2, dump2, err2⟩
        obtain ⟨t1, ht1⟩ := nodeLoop_cache_extend proc stage nodes e false dump
        rw [hnl] at ht1
        simp only at ht1
        cases err2 with
        | some m =>
          dsimp only
          exact ⟨t1, ht1⟩
        | none =>
          dsimp only
          cases ok2 with
          | false => exact ⟨t1, ht1⟩
          | true =>
            obtain ⟨t2, ht2⟩ := ih e2 dump2
            refine ⟨t1 ++ t2, ?_⟩
            show (stageLoop proc all nodes rest e2 dump2).cache = dump ++ (t1 ++ t2)
            rw [ht2, ht1, List.append_assoc]

lemma nodeLoop_ok_entry {E F : Type}
    (proc : Node E F → Event → Event × Bool × Option String) (stage : String) :
    ∀ (ns : List (Node E F)) (e : Event) (ok : Bool) (dump : ParserResults),
      (nodeLoop proc stage ns e ok dump).err = none →
      (nodeLoop proc stage ns e ok dump).ok = true →
      ok = true ∨ ∃ nm, (stage, nm, true) ∈ (nodeLoop proc stage ns e ok dump).cache := by
  intro ns
  induction ns with
  | nil =>
    intro e ok dump _ hok
    left
    simpa [nodeLoop] using hok
  | cons n rest ih =>
    intro e ok dump herr hok
    simp only [nodeLoop] at herr hok ⊢
    by_cases hskip : e.Stage ≠ n.Stage
    · rw [if_pos hskip] at herr hok ⊢
      exact ih e ok dump herr hok
    · rw [if_neg hskip] at herr hok ⊢
      rcases hp : proc n e with ⟨e2, ret, err⟩
      cases err with
      | some m =>
        rw [hp] at herr
        dsimp only at herr
        cases herr
      | none =>
        rw [hp] at herr hok
        dsimp only at herr hok ⊢
        by_cases hb1 : ret = true ∧ n.OnSuccess = "next_stage"
        · rw [if_pos hb1] at hok ⊢
          cases ok with
          | true => exact Or.inl rfl
          | false =>
            right
            refine ⟨n.Name, ?_⟩
            have hret : ret = true := hb1.1
            simp [hret]
        · rw [if_neg hb1] at herr hok ⊢
          by_cases hb2 : e2.Stage ≠ stage
          · rw [if_pos hb2] at hok ⊢
            cases ok with
            | true => exact Or.inl rfl
            | false =>
              right
              refine ⟨n.Name, ?_⟩
              have hret : ret = true := by simpa using hok
              simp [hret]
          · rw [if_neg hb2] at herr hok ⊢
            rcases ih e2 (ok || ret) (dump ++ [(stage, n.Name, ret)]) herr hok with hup | hentry
            · cases ok with
              | true => exact Or.inl rfl
              | false =>
                right
                refine ⟨n.Name, ?_⟩
                have hret : ret = true := by simpa using hup
                obtain ⟨t, ht⟩ := nodeLoop_cache_extend proc stage rest e2 (false || ret)
                  (dump ++ [(stage, n.Name, ret)])
                rw [ht]
                simp [hret]
            · exact Or.inr hentry

lemma stageLoop_passed {E F : Type}
    (proc : Node E F → Event → Event × Bool × Option String)
    (all : List String) (nodes : List (Node E F))
    (Hproc : ∀ n e, stageidx ((proc n e).1).Stage all ≥ stageidx e.Stage all) :
    ∀ (sts : List String) (e : Event) (dump : ParserResults),
      (stageLoop proc all nodes sts e dump).err = none →
      ((stageLoop proc all nodes sts e dump).ev).Process = true →
      ∀ s ∈ sts,
        (∃ nm, (s, nm, true) ∈ (stageLoop proc all nodes sts e dump).cache) ∨
        stageidx s all < stageidx ((stageLoop proc all nodes sts e dump).ev).Stage all := by
  intro sts
  induction sts with
  | nil => intro e dump _ _ s hs; cases hs
  | cons stage rest ih =>
    intro e dump herr hP s hs
    simp only [stageLoop] at herr hP ⊢
    by_cases hskip : stageidx e.Stage all > stageidx stage all
    · rw [if_pos hskip] at herr hP ⊢
      rcases List.mem_cons.mp hs with rfl | hsr
      · right
        have hmono := stageLoop_stage_mono proc all nodes Hproc rest e dump
        omega
      · exact ih e dump herr hP s hsr
    · rw [if_neg hskip] at herr hP ⊢
      by_cases hbeh : e.Stage ≠ stage
      · rw [if_pos hbeh] at hP
        simp at hP
      · rw [if_neg hbeh] at herr hP ⊢
        rcases hnl : nodeLoop proc stage nodes e false dump with ⟨e2, ok2, dump2, err2⟩
        rw [hnl] at herr hP
        cases err2 with
        | some m =>
          dsimp only at herr
          cases herr
        | none =>
          dsimp only at herr hP ⊢
          cases ok2 with
          | false => simp at hP
          | true =>
            rw [if_neg (by simp)] at herr hP ⊢
            rcases List.mem_cons.mp hs with rfl | hsr
            · have hoe := nodeLoop_ok_entry proc s nodes e false dump
              rw [hnl] at hoe
              rcases hoe rfl rfl with hfalse | ⟨nm, hmem⟩
              · cases hfalse
              · left
                obtain ⟨t, ht⟩ := stageLoop_cache_extend proc all nodes rest e2 dump2
                exact ⟨nm, by rw [ht]; exact List.mem_append_left t hmem⟩
            · exact ih e2 dump2 herr hP s hsr

/-- Claim C1 (amended): provided the nodes' match/process logic never
    moves the event to an earlier configured stage, the final stage after
    `Parse` is the initial stage or a later one in the configured order;
    and a `Process = true` result means the stage loop consumed every
    configured stage — each stage either recorded at least one matching
    node in the dump cache, or was skipped because the event was already
    past it. -/
theorem parse_monotone_stages_passed {E F : Type} (now : Nat)
    (proc : Node E F → Event → Event × Bool × Option String)
    (ctx : UnixParserCtx) (xp : Event) (nodes : List (Node E F))
    (Hproc : ∀ n e, stageidx ((proc n e).1).Stage ctx.Stages ≥
      stageidx e.Stage ctx.Stages) :
    stageidx ((Parse now proc ctx xp nodes).ev).Stage ctx.Stages ≥
      stageidx (parseInit now ctx xp).Stage ctx.Stages ∧
    ((Parse now proc ctx xp nodes).err = none →
      ((Parse now proc ctx xp nodes).ev).Process = true →
      ∀ s ∈ ctx.Stages,
        (∃ nm, (s, nm, true) ∈ (Parse now proc ctx xp nodes).cache) ∨
        stageidx s ctx.Stages <
          stageidx ((Parse now proc ctx xp nodes).ev).Stage ctx.Stages) := by
  constructor
  · exact stageLoop_stage_mono proc ctx.Stages nodes Hproc ctx.Stages
      (parseInit now ctx xp) []
  · exact stageLoop_passed proc ctx.Stages nodes Hproc ctx.Stages
      (parseInit now ctx xp) []

/-- A one-stage parser context. -/
def ctx1 : UnixParserCtx := ⟨["s00"]⟩

/-- Witness for C1's theorem: with one stage and one always-matching
    node, the stage records a matching node in the dump cache. -/
theorem parse_monotone_stages_passed_witness :
    (∃ nm, ("s00", nm, true) ∈ (Parse 5 procId ctx1 evt0 [nodePD]).cache) ∨
      stageidx "s00" ctx1.Stages <
        stageidx ((Parse 5 procId ctx1 evt0 [nodePD]).ev).Stage ctx1.Stages :=
  (parse_monotone_stages_passed 5 procId ctx1 evt0 [nodePD]
    (fun _ e => le_refl _)).2 rfl rfl "s00" (by simp [ctx1])

/-- A two-stage parser context. -/
def ctx2 : UnixParserCtx := ⟨["s00", "s01"]⟩

/-- An event injected directly at the second stage. -/
def evtS1 : Event := ⟨"s01", false, 1, some [], some [], some [], some []⟩

/-- An always-matching node of the second stage. -/
def nodeS1 : Node Unit Unit := ⟨"n1", "n1", "s01", "", false, emptyWL, ⟨[]⟩⟩

/-- Counterexample to claim C1 as stated: an event injected at stage
    `s01` of the configured stages `[s00, s01]` ends with `Process = true`
    and no error, yet stage `s00` never had a matching node — it was
    skipped, so `Process = true` does not imply that every configured
    stage had at least one matching node. -/
theorem parse_every_stage_matched_cex :
    ((Parse 9 procId ctx2 evtS1 [nodeS1]).ev).Process = true ∧
    (Parse 9 procId ctx2 evtS1 [nodeS1]).err = none ∧
    (Parse 9 procId ctx2 evtS1 [nodeS1]).cache = [("s01", "n1", true)] ∧
    ("s00", "n1", true) ∉ (Parse 9 procId ctx2 evtS1 [nodeS1]).cache := by
  refine ⟨rfl, rfl, rfl, ?_⟩
  intro h
  have hc : (Parse 9 procId ctx2 evtS1 [nodeS1]).cache = [("s01", "n1", true)] := rfl
  rw [hc, List.mem_singleton, Prod.mk.injEq] at h
  exact absurd h.1 (by decide)
